import Mathlib

/-!
Verification of the langchainjs language-model core (`langchain-core/src/language_models/base.ts`
and the invocation/callback/structured-output pipeline it drives) against its
natural-language specification.  Pure helpers from the source are embedded as
executable Lean functions; the parts of the pipeline whose implementation lives
outside the surfaced sources (callback manager, cached invoke, structured-output
wrapper) are modelled from the specification, as noted in their doc comments.
-/

/-! ## JavaScript values and JSON serialization (model of the values handled by
`JSON.stringify` in `_getSerializedCacheKeyParametersForCall`). -/

/-- Model of a JavaScript value as it participates in cache-key serialization.
Numbers are modelled as integers; `undef` models JavaScript `undefined`. -/
inductive JsValue where
  | nullV : JsValue
  | undef : JsValue
  | boolV (b : Bool) : JsValue
  | numV (n : Int) : JsValue
  | strV (s : String) : JsValue
  | arrV (elems : List JsValue) : JsValue
  | objV (fields : List (String × JsValue)) : JsValue

/-- The double-quote character. -/
def qmChar : Char := Char.ofNat 34

/-- The backslash character. -/
def bsChar : Char := Char.ofNat 92

/-- The opening-brace character. -/
def lbChar : Char := Char.ofNat 123

/-- The closing-brace character. -/
def rbChar : Char := Char.ofNat 125

/-- Opening brace as a string. -/
def lbStr : String := String.mk [lbChar]

/-- Closing brace as a string. -/
def rbStr : String := String.mk [rbChar]

/-- JSON string escaping of a single character (quotes and backslashes). -/
def escChar (c : Char) : List Char :=
  if c = qmChar ∨ c = bsChar then [bsChar, c] else [c]

/-- JSON quoting of a string, as produced by `JSON.stringify` on strings. -/
def quoteJson (s : String) : String :=
  String.mk (qmChar :: (s.data.foldr (fun c acc => escChar c ++ acc) [qmChar]))

/-- `[].join(",")`: join a list of strings with comma separators. -/
def joinComma : List String → String
  | [] => ""
  | [s] => s
  | s :: rest => s ++ "," ++ joinComma rest

mutual
/-- `JSON.stringify` on a JavaScript value: `none` models the JavaScript result
`undefined` (for an `undefined` input).  Object fields with `undefined` values
are dropped; `undefined` array elements serialize as `null`. -/
def stringifyV : JsValue → Option String
  | .undef => none
  | .nullV => some "null"
  | .boolV true => some "true"
  | .boolV false => some "false"
  | .numV n => some (toString n)
  | .strV s => some (quoteJson s)
  | .arrV es => some ("[" ++ joinComma (stringifyArr es) ++ "]")
  | .objV fs => some (lbStr ++ joinComma (stringifyObj fs) ++ rbStr)

/-- Serialization of array elements (`undefined` becomes `null`). -/
def stringifyArr : List JsValue → List String
  | [] => []
  | e :: es => ((stringifyV e).getD "null") :: stringifyArr es

/-- Serialization of object fields (`undefined`-valued fields are dropped). -/
def stringifyObj : List (String × JsValue) → List String
  | [] => []
  | (k, v) :: fs =>
    match stringifyV v with
    | none => stringifyObj fs
    | some s => (quoteJson k ++ ":" ++ s) :: stringifyObj fs
end

/-- The string interpolated into the cache-key entry template
`` `${key}:${JSON.stringify(value)}` ``: a JavaScript `undefined` serialization
interpolates as the text `undefined`. -/
def stringifyTop (v : JsValue) : String := (stringifyV v).getD "undefined"

/-! ## Lexicographic string order (model of JavaScript default `Array.sort`
comparison on strings). -/

/-- Strict lexicographic order on character lists. -/
def lexLt : List Char → List Char → Bool
  | _, [] => false
  | [], _ :: _ => true
  | a :: as, b :: bs =>
    if a < b then true else if b < a then false else lexLt as bs

/-- `a ≤ b` on strings in the JavaScript sort order. -/
def strLe (a b : String) : Bool := !(lexLt b.data a.data)

/-- The sort relation used by JavaScript `Array.prototype.sort` on strings. -/
def strLeRel : String → String → Prop := fun a b => strLe a b = true

instance : DecidableRel strLeRel := fun a b => instDecidableEqBool (strLe a b) true

/-- Sorting a list of strings as JavaScript `Array.prototype.sort` does. -/
def sortStrings (l : List String) : List String :=
  List.insertionSort strLeRel l

/-! ## Records and spread-merge (model of `{...a, ...b}` object spread). -/

/-- A JavaScript record, as an association list in property insertion order. -/
abbrev JsRecord : Type := List (String × JsValue)

/-- Assigning a property: replaces the value in place if the key is present
(keeping its position, as JavaScript object assignment does), otherwise
appends the new property at the end. -/
def upsert : JsRecord → String → JsValue → JsRecord
  | [], k, v => [(k, v)]
  | p :: rest, k, v => if p.1 == k then (k, v) :: rest else p :: upsert rest k v

/-- Object spread `{...r, ...s}`: assign every property of `s` onto `r` in
order. -/
def spreadMerge (r s : JsRecord) : JsRecord :=
  List.foldl (fun acc p => upsert acc p.1 p.2) r s

/-- `value !== undefined`. -/
def isDef : JsValue → Bool
  | .undef => false
  | _ => true

/-- The `_type`/`_model` tags appended after the spread in
`_getSerializedCacheKeyParametersForCall`. -/
def typeTags (llmType modelType : String) : JsRecord :=
  [("_type", JsValue.strV llmType), ("_model", JsValue.strV modelType)]

/-- Embedding of `_getSerializedCacheKeyParametersForCall`
(`language_models/base.ts`): spread-merge identifying parameters, call options
and the `_type`/`_model` tags, drop `undefined`-valued entries, serialize each
entry as `key:JSON.stringify(value)`, sort the serialized entries, and join
them with commas. -/
def serializedCacheKeyParametersForCall
    (idParams opts : JsRecord) (llmType modelType : String) : String :=
  let params := spreadMerge (spreadMerge idParams opts) (typeTags llmType modelType)
  let filteredEntries := List.filter (fun p => isDef p.2) params
  let serializedEntries :=
    List.map (fun p : String × JsValue => p.1 ++ ":" ++ stringifyTop p.2) filteredEntries
  joinComma (sortStrings serializedEntries)

/-- Keys of a record. -/
def recKeys (r : JsRecord) : List String := List.map Prod.fst r

/-- A record with no duplicate property names (every JavaScript object). -/
def NodupKeys (r : JsRecord) : Prop := (recKeys r).Nodup

/-- A property name containing no colon (every actual call-option name). -/
def ColonFree (s : String) : Prop := (':' : Char) ∉ s.data

/-- All keys of a record are colon-free. -/
def ColonFreeKeys (r : JsRecord) : Prop := ∀ k ∈ recKeys r, ColonFree k

/-! ## Token counting (`getModelNameForTiktoken`, `getModelContextSize`,
`calculateMaxTokens`, `getNumTokens` from `language_models/base.ts`). -/

/-- `p` is a prefix of `s` (`String.prototype.startsWith`). -/
def strStartsWith (s p : String) : Bool := List.isPrefixOf p.data s.data

/-- Embedding of `getModelNameForTiktoken`. -/
def getModelNameForTiktoken (modelName : String) : String :=
  if strStartsWith modelName "gpt-3.5-turbo-16k" then "gpt-3.5-turbo-16k"
  else if strStartsWith modelName "gpt-3.5-turbo-" then "gpt-3.5-turbo"
  else if strStartsWith modelName "gpt-4-32k" then "gpt-4-32k"
  else if strStartsWith modelName "gpt-4-" then "gpt-4"
  else modelName

/-- Embedding of `getEmbeddingContextSize`. -/
def getEmbeddingContextSize (modelName : Option String) : Nat :=
  match modelName with
  | some "text-embedding-ada-002" => 8191
  | _ => 2046

/-- Embedding of `getModelContextSize`. -/
def getModelContextSize (modelName : String) : Nat :=
  match getModelNameForTiktoken modelName with
  | "gpt-3.5-turbo-16k" => 16384
  | "gpt-3.5-turbo" => 4096
  | "gpt-4-32k" => 32768
  | "gpt-4" => 8192
  | "text-davinci-003" => 4097
  | "text-curie-001" => 2048
  | "text-babbage-001" => 2048
  | "text-ada-001" => 2048
  | "code-davinci-002" => 8000
  | "code-cushman-001" => 2048
  | _ => 4097

/-- `Math.ceil(length / 4)`: one token per approximately four characters. -/
def ceilQuarter (n : Nat) : Nat := (n + 3) / 4

/-- A tiktoken encoding whose `encode` call may throw (`none`). -/
structure Encoding where
  encodeRes : String → Option (List Nat)

/-- The tiktoken environment: `encodingForModel` may throw (`none`), e.g. when
the tokenizer is unavailable. -/
structure TiktokenEnv where
  encodingFor : String → Option Encoding

/-- Embedding of `calculateMaxTokens`: the token count of the prompt is taken
from the model-specific encoding when both the encoding lookup and the encode
call succeed, otherwise it silently falls back to `Math.ceil(length / 4)`; the
result is the model context size minus the token count. -/
def calculateMaxTokens (env : TiktokenEnv) (prompt modelName : String) : Int :=
  let numTokens : Nat :=
    match env.encodingFor (getModelNameForTiktoken modelName) with
    | some enc =>
      match enc.encodeRes prompt with
      | some toks => toks.length
      | none => ceilQuarter prompt.length
    | none => ceilQuarter prompt.length
  (getModelContextSize modelName : Int) - (numTokens : Int)

/-- An opaque non-text message content part (e.g. an image part). -/
structure ContentPart where
  kind : String
  payload : String

/-- Message content: either a plain string or a list of content parts. -/
inductive MessageContent where
  | textC (s : String) : MessageContent
  | partsC (parts : List ContentPart) : MessageContent

/-- Embedding of `BaseLanguageModel.getNumTokens`: non-string content returns 0
immediately; for string content the count starts at the character-count
heuristic, the cached encoding (or a freshly resolved one) is consulted, and a
successful encode call overrides the heuristic.  Returns the count together
with the updated `_encoding` cache field. -/
def getNumTokens (env : TiktokenEnv) (cachedEncoding : Option Encoding)
    (modelName : Option String) (content : MessageContent) :
    Nat × Option Encoding :=
  match content with
  | .partsC _ => (0, cachedEncoding)
  | .textC s =>
    let fallback := ceilQuarter s.length
    let enc : Option Encoding :=
      match cachedEncoding with
      | some e => some e
      | none =>
        env.encodingFor
          (match modelName with
           | some mn => getModelNameForTiktoken mn
           | none => "gpt2")
    match enc with
    | none => (fallback, none)
    | some e =>
      match e.encodeRes s with
      | some toks => (toks.length, some e)
      | none => (fallback, some e)

/-! ## Input normalization (`_convertInputToPromptValue` from
`language_models/base.ts`). -/

/-- A chat message (role and content). -/
structure BaseMsg where
  role : String
  content : String

/-- Modelled from the spec: a message-like value accepted in a message array —
either an already-constructed message or message-like data coerced per element
(the implementation of `coerceMessageLikeToMessage` lives in the messages
module, outside the surfaced sources). -/
inductive BaseMessageLike where
  | msg (m : BaseMsg) : BaseMessageLike
  | textLike (s : String) : BaseMessageLike

/-- Modelled from the spec: per-element message coercion
(`coerceMessageLikeToMessage`): an existing message passes through, other
message-like data is coerced to a human message. -/
def coerceMessageLikeToMessage : BaseMessageLike → BaseMsg
  | .msg m => m
  | .textLike s => ⟨"human", s⟩

/-- A prompt value: single-turn string prompt or multi-turn chat prompt. -/
inductive PromptValue where
  | stringPrompt (s : String) : PromptValue
  | chatPrompt (msgs : List BaseMsg) : PromptValue

/-- `BaseLanguageModelInput`: string, message-like array, or prompt value. -/
inductive LMInput where
  | stringIn (s : String) : LMInput
  | msgsIn (l : List BaseMessageLike) : LMInput
  | promptIn (p : PromptValue) : LMInput

/-- Embedding of `BaseLanguageModel._convertInputToPromptValue`: a string maps
to a `StringPromptValue`, an array maps to a `ChatPromptValue` of coerced
messages, anything else passes through. -/
def convertInputToPromptValue : LMInput → PromptValue
  | .stringIn s => .stringPrompt s
  | .msgsIn l => .chatPrompt (List.map coerceMessageLikeToMessage l)
  | .promptIn p => p

/-! ## Invocation, cache and callback dispatch.  Modelled from the spec: the
cached-invocation path and callback manager are implemented in
`chat_models.ts` / `callbacks/manager.ts`, which are not among the surfaced
sources (only their test, `language_models/tests/chat_models.test.ts`, is). -/

/-- A lifecycle event dispatched to callback handlers for one invocation. -/
inductive Event where
  | startEv : Event
  | tokenEv (t : String) : Event
  | endEv (content : String) : Event
  | errorEv (msg : String) : Event

/-- The outcome of one provider call: the chunks streamed before completion,
and an error message when the call failed mid-stream. -/
structure ProviderRun where
  chunks : List String
  failMsg : Option String

/-- Concatenate streamed chunks into the final output content. -/
def concatChunks (chunks : List String) : String :=
  List.foldl (fun acc c => acc ++ c) "" chunks

/-- The shared cache, keyed by the call fingerprint, storing the chunk
sequence of the generation produced on a miss. -/
abbrev ModelCache : Type := List (String × List String)

/-- Cache lookup (first matching entry). -/
def lookupCache : ModelCache → String → Option (List String)
  | [], _ => none
  | (k, v) :: rest, key => if k == key then some v else lookupCache rest key

/-- Modelled from the spec (§4.2, invocation path of the Base Language Model,
not among the surfaced sources): on a cache hit the cached generation is
returned and its tokens are replayed as new-token events between start and
end; on a miss the provider is called, each streamed chunk is emitted as a
new-token event in arrival order, and on success the result is stored and an
end event emitted, while on failure an error event is emitted and nothing is
cached.  Returns (outcome, dispatched event trace, updated cache). -/
def invokeModel (provider : String → ProviderRun) (cache : ModelCache)
    (input : String) : Except String String × List Event × ModelCache :=
  match lookupCache cache input with
  | some chunks =>
    (.ok (concatChunks chunks),
     Event.startEv :: List.map Event.tokenEv chunks ++ [Event.endEv (concatChunks chunks)],
     cache)
  | none =>
    let pr := provider input
    match pr.failMsg with
    | none =>
      (.ok (concatChunks pr.chunks),
       Event.startEv :: List.map Event.tokenEv pr.chunks ++ [Event.endEv (concatChunks pr.chunks)],
       (input, pr.chunks) :: cache)
    | some e =>
      (.error e,
       Event.startEv :: List.map Event.tokenEv pr.chunks ++ [Event.errorEv e],
       cache)

/-- The returned outcome of an invocation. -/
def invokeResult (provider : String → ProviderRun) (cache : ModelCache)
    (input : String) : Except String String :=
  (invokeModel provider cache input).1

/-- The event trace dispatched during an invocation. -/
def invokeTrace (provider : String → ProviderRun) (cache : ModelCache)
    (input : String) : List Event :=
  (invokeModel provider cache input).2.1

/-- The cache state after an invocation. -/
def invokeCacheAfter (provider : String → ProviderRun) (cache : ModelCache)
    (input : String) : ModelCache :=
  (invokeModel provider cache input).2.2

/-- The payloads of the new-token events of a trace, in dispatch order. -/
def tokensOf : List Event → List String
  | [] => []
  | Event.tokenEv t :: rest => t :: tokensOf rest
  | _ :: rest => tokensOf rest

/-- Whether an event is a new-token event. -/
def isTokenEv : Event → Bool
  | .tokenEv _ => true
  | _ => false

/-- Whether an event is a terminal (end or error) event. -/
def isFinalEv : Event → Bool
  | .endEv _ => true
  | .errorEv _ => true
  | _ => false

/-- A callback handler, abstracted to its observable failure behaviour: for
each event, whether the handler raises when invoked on it. -/
abbrev Handler : Type := Event → Bool

/-- Modelled from the spec (§4.1, callback manager, not among the surfaced
sources): best-effort fan-out of one event to every registered handler in
registration order; a handler that raises is caught (its outcome `true` is
recorded and logged) and dispatch continues with the remaining handlers. -/
def dispatchAll (hs : List Handler) (e : Event) : List Bool :=
  List.map (fun h => h e) hs

/-- Modelled from the spec: an invocation observed through handlers — every
event of the trace is dispatched to every handler, and the invocation outcome
is the one of the underlying invocation, unaffected by handler failures.
Returns (outcome, dispatch log pairing each event with all handler outcomes,
updated cache). -/
def invokeWithHandlers (provider : String → ProviderRun) (cache : ModelCache)
    (input : String) (hs : List Handler) :
    Except String String × List (Event × List Bool) × ModelCache :=
  let r := invokeModel provider cache input
  (r.1, List.map (fun e => (e, dispatchAll hs e)) r.2.1, r.2.2)

/-! ## Structured output.  Modelled from the spec (§4.3) and the tests: the
structured-output wrapper parses the raw model output as JSON, validates it
against the supplied schema, and returns either the parsed value alone or a
composite with the raw output, per `includeRaw`.  Its implementation
(`withStructuredOutput` on the chat model) is not among the surfaced sources;
only its declaration and tests are. -/

/-- Skip JSON whitespace. -/
def skipWs : List Char → List Char
  | ' ' :: rest => skipWs rest
  | '\t' :: rest => skipWs rest
  | '\n' :: rest => skipWs rest
  | '\r' :: rest => skipWs rest
  | cs => cs

/-- Parse a JSON string body up to the closing quote (single-character
backslash escapes for quote and backslash supported). -/
def parseStrBody : List Char → Option (List Char × List Char)
  | [] => none
  | c :: rest =>
    if c = qmChar then some ([], rest)
    else if c = bsChar then
      match rest with
      | [] => none
      | e :: rest2 =>
        match parseStrBody rest2 with
        | some (body, rem) => some (e :: body, rem)
        | none => none
    else
      match parseStrBody rest with
      | some (body, rem) => some (c :: body, rem)
      | none => none

/-- Parse a run of decimal digits. -/
def parseDigits : List Char → (List Char × List Char)
  | [] => ([], [])
  | c :: rest =>
    if c.isDigit then
      let r := parseDigits rest
      (c :: r.1, r.2)
    else ([], c :: rest)

/-- Digits to a natural number. -/
def digitsToNat (ds : List Char) : Nat :=
  List.foldl (fun acc c => acc * 10 + (c.toNat - 48)) 0 ds

mutual
/-- A small JSON parser (model of `JSON.parse` on the JSON subset exercised by
the structured-output path: objects, arrays, strings, integers, booleans,
null), with fuel for termination. -/
def parseVal : Nat → List Char → Option (JsValue × List Char)
  | 0, _ => none
  | fuel + 1, cs =>
    match skipWs cs with
    | [] => none
    | c :: rest =>
      if c = lbChar then
        match skipWs rest with
        | d :: rest2 =>
          if d = rbChar then some (.objV [], rest2)
          else parseMembers fuel (d :: rest2)
        | [] => none
      else if c = '[' then
        match skipWs rest with
        | ']' :: rest2 => some (.arrV [], rest2)
        | rest2 => parseElems fuel rest2
      else if c = qmChar then
        match parseStrBody rest with
        | some (body, rem) => some (.strV (String.mk body), rem)
        | none => none
      else if c = 't' then
        match rest with
        | 'r' :: 'u' :: 'e' :: rem => some (.boolV true, rem)
        | _ => none
      else if c = 'f' then
        match rest with
        | 'a' :: 'l' :: 's' :: 'e' :: rem => some (.boolV false, rem)
        | _ => none
      else if c = 'n' then
        match rest with
        | 'u' :: 'l' :: 'l' :: rem => some (.nullV, rem)
        | _ => none
      else if c = '-' then
        match parseDigits rest with
        | ([], _) => none
        | (ds, rem) => some (.numV (-(digitsToNat ds : Int)), rem)
      else if c.isDigit then
        match parseDigits (c :: rest) with
        | ([], _) => none
        | (ds, rem) => some (.numV (digitsToNat ds : Int), rem)
      else none

/-- Parse the members of a JSON object after the opening brace. -/
def parseMembers (fuel : Nat) (cs : List Char) : Option (JsValue × List Char) :=
  match fuel with
  | 0 => none
  | fuel + 1 =>
    match skipWs cs with
    | c :: rest =>
      if c = qmChar then
        match parseStrBody rest with
        | some (keyBody, rem) =>
          match skipWs rem with
          | ':' :: rem2 =>
            match parseVal fuel rem2 with
            | some (v, rem3) =>
              match skipWs rem3 with
              | ',' :: rem4 =>
                match parseMembers fuel rem4 with
                | some (.objV fs, rem5) => some (.objV ((String.mk keyBody, v) :: fs), rem5)
                | _ => none
              | d :: rem4 =>
                if d = rbChar then some (.objV [(String.mk keyBody, v)], rem4)
                else none
              | [] => none
            | none => none
          | _ => none
        | none => none
      else none
    | [] => none

/-- Parse the elements of a JSON array after the opening bracket. -/
def parseElems (fuel : Nat) (cs : List Char) : Option (JsValue × List Char) :=
  match fuel with
  | 0 => none
  | fuel + 1 =>
    match parseVal fuel cs with
    | some (v, rem) =>
      match skipWs rem with
      | ',' :: rem2 =>
        match parseElems fuel rem2 with
        | some (.arrV vs, rem3) => some (.arrV (v :: vs), rem3)
        | _ => none
      | ']' :: rem2 => some (.arrV [v], rem2)
      | _ => none
    | none => none
end

/-- `JSON.parse`: parse a complete JSON document, requiring only trailing
whitespace after the value. -/
def parseJson (s : String) : Option JsValue :=
  match parseVal (s.data.length + 1) s.data with
  | some (v, rem) =>
    match skipWs rem with
    | [] => some v
    | _ => none
  | none => none

/-- A structured-output schema: a validated-object descriptor (model of the
zod schemas used by `withStructuredOutput`). -/
inductive Schema where
  | boolS : Schema
  | strS : Schema
  | numS : Schema
  | objS (fields : List (String × Schema)) : Schema

/-- First-match property lookup on a parsed JSON object. -/
def lookupField : List (String × JsValue) → String → Option JsValue
  | [], _ => none
  | (k, v) :: rest, key => if k == key then some v else lookupField rest key

mutual
/-- Modelled from the spec: schema validation of a parsed JSON value.  On
success it returns the validated value, rebuilt to the schema shape (unknown
object properties are stripped, as zod object parsing does); any missing or
mistyped field fails the whole validation. -/
def validate : Schema → JsValue → Option JsValue
  | .boolS, .boolV b => some (.boolV b)
  | .strS, .strV s => some (.strV s)
  | .numS, .numV n => some (.numV n)
  | .objS fs, .objV props =>
    match validateFields fs props with
    | some ws => some (.objV ws)
    | none => none
  | _, _ => none

/-- Validate each schema field against the corresponding object property. -/
def validateFields : List (String × Schema) → List (String × JsValue) →
    Option (List (String × JsValue))
  | [], _ => some []
  | (k, s) :: fs, props =>
    match lookupField props k with
    | none => none
    | some v =>
      match validate s v with
      | none => none
      | some w =>
        match validateFields fs props with
        | some ws => some ((k, w) :: ws)
        | none => none
end

mutual
/-- A value fully conforms to a schema: right scalar type, and for objects
exactly the schema's fields, in schema order, each conforming — i.e. not a
partially validated, defaulted or coerced object. -/
def conformsB : Schema → JsValue → Bool
  | .boolS, .boolV _ => true
  | .strS, .strV _ => true
  | .numS, .numV _ => true
  | .objS fs, .objV props => conformsFieldsB fs props
  | _, _ => false

/-- Field-wise conformance: the object's properties are exactly the schema's
fields in order, with conforming values. -/
def conformsFieldsB : List (String × Schema) → List (String × JsValue) → Bool
  | [], [] => true
  | (k, s) :: fs, (k2, v) :: props =>
    (k == k2) && conformsB s v && conformsFieldsB fs props
  | _, _ => false
end

/-- A structured-output parsing error: malformed JSON, or JSON that fails
schema validation. -/
inductive SOError where
  | jsonError : SOError
  | validationError : SOError

/-- The result of the structured-output wrapper: the parsed value alone, or a
composite of the raw model output and the parsed value. -/
inductive StructResult where
  | bare (v : JsValue) : StructResult
  | withRaw (raw : String) (v : JsValue) : StructResult

/-- The parsed component of a structured-output result. -/
def parsedOf : StructResult → JsValue
  | .bare v => v
  | .withRaw _ v => v

/-- Modelled from the spec (§4.3, structured-output wrapper, not among the
surfaced sources): parse the raw model output as JSON, validate against the
schema, and return the validated value — wrapped together with the raw output
when `includeRaw` is set.  Parse or validation failure raises a
structured-output parsing error. -/
def structuredInvoke (schema : Schema) (includeRaw : Bool) (rawOutput : String) :
    Except SOError StructResult :=
  match parseJson rawOutput with
  | none => .error .jsonError
  | some j =>
    match validate schema j with
    | none => .error .validationError
    | some w => .ok (if includeRaw then .withRaw rawOutput w else .bare w)

/-- Lift a bare structured result to a raw-carrying one. -/
def attachRaw (raw : String) : StructResult → StructResult
  | .bare v => .withRaw raw v
  | .withRaw r v => .withRaw r v

/-! ## Concrete fixtures used by witnesses and counterexamples. -/

/-- The schema of the `withStructuredOutput` tests:
`z.object(\x7b test: z.boolean(), nested: z.object(\x7b somethingelse: z.string() \x7d) \x7d)`. -/
def testSchema : Schema :=
  .objS [("test", .boolS), ("nested", .objS [("somethingelse", .strS)])]

/-- The raw model output of the `withStructuredOutput` tests. -/
def testRawOutput : String :=
  "\x7b \"test\": true, \"nested\": \x7b \"somethingelse\": \"somevalue\" \x7d \x7d"

/-- The expected parsed value of the `withStructuredOutput` tests. -/
def testParsedValue : JsValue :=
  .objV [("test", .boolV true), ("nested", .objV [("somethingelse", .strV "somevalue")])]

/-- A provider that streams two chunks and succeeds (the fake chat model of
the callback tests). -/
def okProvider : String → ProviderRun := fun s => ⟨[s, "!"], none⟩

/-- A tokenizer environment where the encoding lookup always throws. -/
def failingTiktokenEnv : TiktokenEnv := ⟨fun _ => none⟩

/-- An encoding whose encode call always throws. -/
def failingEncoding : Encoding := ⟨fun _ => none⟩

/-- A handler that raises on every event. -/
def raisingHandler : Handler := fun _ => true

/-! ## Theorems -/

/-- C7: input normalization is deterministic (a function) and total over the
supported shapes, mapping every plain string to a single-turn string prompt
value, every message-like array to a multi-turn chat prompt value via
per-element coercion, and passing every prompt value through unchanged.
Totality over the three supported shapes is exactness of the three equations
below, which cover every constructor of `LMInput`. -/
theorem convertInput_total_deterministic :
    (∀ s : String, convertInputToPromptValue (.stringIn s) = .stringPrompt s) ∧
    (∀ l : List BaseMessageLike,
      convertInputToPromptValue (.msgsIn l) =
        .chatPrompt (List.map coerceMessageLikeToMessage l)) ∧
    (∀ p : PromptValue, convertInputToPromptValue (.promptIn p) = p) :=
  ⟨fun _ => rfl, fun _ => rfl, fun _ => rfl⟩

/-- C10: for every non-string message content, `getNumTokens` returns exactly
0 with the `_encoding` state untouched, for every tokenizer environment — so
neither the subword tokenizer nor the character-count heuristic is
consulted. -/
theorem getNumTokens_nonstring_zero :
    ∀ (env : TiktokenEnv) (cached : Option Encoding) (modelName : Option String)
      (parts : List ContentPart),
      getNumTokens env cached modelName (.partsC parts) = (0, cached) :=
  fun _ _ _ _ => rfl

/-- C8: token counting never raises — `getNumTokens` and the token count
inside `calculateMaxTokens` are total functions of the environment, and
whenever the model-specific tokenizer is unavailable (encoding lookup throws)
or its encoding fails (encode throws), the result silently degrades to the
character-count heuristic `Math.ceil(length / 4)`. -/
theorem tokenCounting_silent_fallback :
    (∀ (env : TiktokenEnv) (modelName : Option String) (s : String),
        (∀ key, env.encodingFor key = none) →
        (getNumTokens env none modelName (.textC s)).1 = ceilQuarter s.length) ∧
    (∀ (env : TiktokenEnv) (modelName : Option String) (s : String) (e : Encoding),
        e.encodeRes s = none →
        (getNumTokens env (some e) modelName (.textC s)).1 = ceilQuarter s.length) ∧
    (∀ (env : TiktokenEnv) (prompt modelName : String),
        (∀ key, env.encodingFor key = none) →
        calculateMaxTokens env prompt modelName =
          (getModelContextSize modelName : Int) - (ceilQuarter prompt.length : Int)) ∧
    (∀ (env : TiktokenEnv) (prompt modelName : String) (e : Encoding),
        env.encodingFor (getModelNameForTiktoken modelName) = some e →
        e.encodeRes prompt = none →
        calculateMaxTokens env prompt modelName =
          (getModelContextSize modelName : Int) - (ceilQuarter prompt.length : Int)) := by
  refine ⟨?_, ?_, ?_, ?_⟩
  · intro env modelName s h
    simp [getNumTokens, h]
  · intro env modelName s e h
    simp [getNumTokens, h]
  · intro env prompt modelName h
    simp [calculateMaxTokens, h]
  · intro env prompt modelName e h1 h2
    simp [calculateMaxTokens, h1, h2]

/-- Witness for C8 at concrete failing environments: a throwing encoding
lookup and a throwing encode call both fall back to `ceil(5 / 4) = 2` tokens
for the five-character prompt `"Hello"`. -/
theorem tokenCounting_silent_fallback_witness :
    (getNumTokens failingTiktokenEnv none (some "gpt2") (.textC "Hello")).1 = 2 ∧
    (getNumTokens failingTiktokenEnv (some failingEncoding) (some "gpt2") (.textC "Hello")).1 = 2 ∧
    calculateMaxTokens failingTiktokenEnv "Hello" "gpt-4" = 8192 - 2 := by
  refine ⟨?_, ?_, ?_⟩
  · have h := tokenCounting_silent_fallback.1 failingTiktokenEnv (some "gpt2") "Hello"
      (fun _ => rfl)
    rw [h]; rfl
  · have h := tokenCounting_silent_fallback.2.1 failingTiktokenEnv (some "gpt2") "Hello"
      failingEncoding rfl
    rw [h]; rfl
  · have h := tokenCounting_silent_fallback.2.2.1 failingTiktokenEnv "Hello" "gpt-4"
      (fun _ => rfl)
    rw [h]; rfl

/-- C5: the structured-output round trip of the tests — on the raw output
`\x7b "test": true, "nested": \x7b "somethingelse": "somevalue" \x7d \x7d` with the test schema,
`includeRaw = false` returns exactly the parsed object, `includeRaw = true`
returns the raw output together with the same parsed object, and in general
the `includeRaw` flag is a pure output-shape switch: the `includeRaw = true`
result is the `includeRaw = false` result with the raw output attached,
identical in success/failure and in parsed content. -/
theorem withStructuredOutput_roundTrip :
    structuredInvoke testSchema false testRawOutput = .ok (.bare testParsedValue) ∧
    structuredInvoke testSchema true testRawOutput =
      .ok (.withRaw testRawOutput testParsedValue) ∧
    (∀ (s : Schema) (raw : String),
      structuredInvoke s true raw = (structuredInvoke s false raw).map (attachRaw raw)) := by
  refine ⟨rfl, rfl, ?_⟩
  intro s raw
  unfold structuredInvoke
  cases parseJson raw with
  | none => simp [Except.map]
  | some j =>
    cases hv : validate s j with
    | none => simp [hv, Except.map]
    | some w => simp [hv, Except.map, attachRaw]

/-- Validation soundness, bounded form: a successfully validated value fully
conforms to the schema (stated for all schemas below a size bound, to drive
the mutual induction between schemas and their field lists). -/
theorem validate_conforms_bound : ∀ n : Nat,
    (∀ (s : Schema) (v w : JsValue), sizeOf s < n →
        validate s v = some w → conformsB s w = true) ∧
    (∀ (fs : List (String × Schema)) (props ws : List (String × JsValue)),
        sizeOf fs < n → validateFields fs props = some ws →
        conformsFieldsB fs ws = true) := by
  intro n
  induction n with
  | zero =>
    exact ⟨fun s v w h => absurd h (by omega), fun fs props ws h => absurd h (by omega)⟩
  | succ n ih =>
    constructor
    · intro s v w hs hv
      cases s with
      | boolS =>
        cases v <;> simp [validate] at hv
        subst hv; rfl
      | strS =>
        cases v <;> simp [validate] at hv
        subst hv; rfl
      | numS =>
        cases v <;> simp [validate] at hv
        subst hv; rfl
      | objS fs =>
        cases v with
        | objV props =>
          cases hfs : validateFields fs props with
          | none => simp [validate, hfs] at hv
          | some ws =>
            simp [validate, hfs] at hv
            subst hv
            have hsz : sizeOf fs < n := by
              simp only [Schema.objS.sizeOf_spec] at hs; omega
            simpa [conformsB] using ih.2 fs props ws hsz hfs
        | nullV => simp [validate] at hv
        | undef => simp [validate] at hv
        | boolV b => simp [validate] at hv
        | numV m => simp [validate] at hv
        | strV t => simp [validate] at hv
        | arrV es => simp [validate] at hv
    · intro fs props ws hfs hv
      cases fs with
      | nil =>
        simp [validateFields] at hv
        subst hv; rfl
      | cons p fs2 =>
        obtain ⟨k, s⟩ := p
        cases hl : lookupField props k with
        | none => simp [validateFields, hl] at hv
        | some v =>
          cases hval : validate s v with
          | none => simp [validateFields, hl, hval] at hv
          | some w =>
            cases hrest : validateFields fs2 props with
            | none => simp [validateFields, hl, hval, hrest] at hv
            | some rest =>
              simp [validateFields, hl, hval, hrest] at hv
              subst hv
              have hs1 : sizeOf s < n := by
                simp only [List.cons.sizeOf_spec, Prod.mk.sizeOf_spec] at hfs; omega
              have hs2 : sizeOf fs2 < n := by
                simp only [List.cons.sizeOf_spec, Prod.mk.sizeOf_spec] at hfs; omega
              simp [conformsFieldsB, ih.1 s v w hs1 hval, ih.2 fs2 props rest hs2 hrest]

/-- Validation soundness: a successfully validated value fully conforms to
the schema. -/
theorem validate_sound (s : Schema) (v w : JsValue) :
    validate s v = some w → conformsB s w = true :=
  fun h => (validate_conforms_bound (sizeOf s + 1)).1 s v w (by omega) h

/-- C6: for every raw model output that is malformed JSON, the structured
output path fails with the JSON parsing error; for every output whose JSON
does not conform to the schema, it fails with the validation error; and every
successful result's parsed component fully conforms to the schema — never a
silently coerced, defaulted or partial object. -/
theorem structuredOutput_errors_surfaced :
    ∀ (s : Schema) (b : Bool) (raw : String),
      (parseJson raw = none → structuredInvoke s b raw = .error .jsonError) ∧
      (∀ j, parseJson raw = some j → validate s j = none →
        structuredInvoke s b raw = .error .validationError) ∧
      (∀ res, structuredInvoke s b raw = .ok res →
        conformsB s (parsedOf res) = true) := by
  intro s b raw
  refine ⟨?_, ?_, ?_⟩
  · intro h; simp [structuredInvoke, h]
  · intro j hj hv; simp [structuredInvoke, hj, hv]
  · intro res hres
    cases hp : parseJson raw with
    | none => simp [structuredInvoke, hp] at hres
    | some j =>
      cases hv : validate s j with
      | none => simp [structuredInvoke, hp, hv] at hres
      | some w =>
        simp [structuredInvoke, hp, hv] at hres
        cases b with
        | false =>
          simp at hres
          subst hres
          simpa [parsedOf] using validate_sound s j w hv
        | true =>
          simp at hres
          subst hres
          simpa [parsedOf] using validate_sound s j w hv

/-- Witness for C6 at concrete inputs: malformed JSON raises the JSON error,
schema-violating JSON (a number where a boolean is required) raises the
validation error, and the successful test output conforms to the schema. -/
theorem structuredOutput_errors_surfaced_witness :
    structuredInvoke testSchema false "not json" = .error .jsonError ∧
    structuredInvoke testSchema false "\x7b \"test\": 1 \x7d" = .error .validationError ∧
    conformsB testSchema testParsedValue = true := by
  refine ⟨?_, ?_, ?_⟩
  · exact (structuredOutput_errors_surfaced testSchema false "not json").1 rfl
  · exact (structuredOutput_errors_surfaced testSchema false
      "\x7b \"test\": 1 \x7d").2.1 (JsValue.objV [("test", JsValue.numV 1)]) rfl rfl
  · exact (structuredOutput_errors_surfaced testSchema false testRawOutput).2.2
      (.bare testParsedValue) rfl

/-- New-token payload extraction distributes over a block of token events. -/
theorem tokensOf_map_append (l : List String) (rest : List Event) :
    tokensOf (List.map Event.tokenEv l ++ rest) = l ++ tokensOf rest := by
  induction l with
  | nil => rfl
  | cons a as ih => simp [tokensOf, ih]

/-- Characterization of a cache-hit invocation. -/
theorem invokeModel_hit (provider : String → ProviderRun) (cache : ModelCache)
    (input : String) (chunks : List String)
    (hl : lookupCache cache input = some chunks) :
    invokeModel provider cache input =
      (.ok (concatChunks chunks),
       Event.startEv :: List.map Event.tokenEv chunks ++ [Event.endEv (concatChunks chunks)],
       cache) := by
  unfold invokeModel; rw [hl]

/-- Characterization of a cache-miss invocation with a successful provider
call. -/
theorem invokeModel_miss_ok (provider : String → ProviderRun) (cache : ModelCache)
    (input : String) (hl : lookupCache cache input = none)
    (hf : (provider input).failMsg = none) :
    invokeModel provider cache input =
      (.ok (concatChunks (provider input).chunks),
       Event.startEv :: List.map Event.tokenEv (provider input).chunks ++
         [Event.endEv (concatChunks (provider input).chunks)],
       (input, (provider input).chunks) :: cache) := by
  unfold invokeModel; rw [hl]; simp only [hf]

/-- Characterization of a cache-miss invocation with a failing provider
call. -/
theorem invokeModel_miss_fail (provider : String → ProviderRun) (cache : ModelCache)
    (input : String) (e : String) (hl : lookupCache cache input = none)
    (hf : (provider input).failMsg = some e) :
    invokeModel provider cache input =
      (.error e,
       Event.startEv :: List.map Event.tokenEv (provider input).chunks ++ [Event.errorEv e],
       cache) := by
  unfold invokeModel; rw [hl]; simp only [hf]

/-- C1: invoking a cached model twice with the same input — whenever the first
call returns an output, the second (cache-hit) call returns the same output,
and the second call's new-token events, concatenated in order, equal the first
call's output content: a cache hit is indistinguishable to a token-accumulating
callback observer from a live streamed response. -/
theorem cache_callback_equivalence :
    ∀ (provider : String → ProviderRun) (cache : ModelCache) (input r : String),
      invokeResult provider cache input = .ok r →
      invokeResult provider (invokeCacheAfter provider cache input) input = .ok r ∧
      concatChunks (tokensOf
        (invokeTrace provider (invokeCacheAfter provider cache input) input)) = r := by
  intro provider cache input r h
  unfold invokeResult invokeCacheAfter invokeTrace at *
  cases hl : lookupCache cache input with
  | some chunks =>
    rw [invokeModel_hit provider cache input chunks hl] at h ⊢
    simp at h
    subst h
    rw [invokeModel_hit provider cache input chunks hl]
    simp [tokensOf_map_append, tokensOf]
  | none =>
    cases hf : (provider input).failMsg with
    | some e =>
      rw [invokeModel_miss_fail provider cache input e hl hf] at h
      simp at h
    | none =>
      rw [invokeModel_miss_ok provider cache input hl hf] at h ⊢
      simp at h
      subst h
      have hhit : lookupCache ((input, (provider input).chunks) :: cache) input =
          some (provider input).chunks := by simp [lookupCache]
      rw [invokeModel_hit provider _ input (provider input).chunks hhit]
      simp [tokensOf_map_append, tokensOf]

/-- Witness for C1 at a concrete provider and input: the second call returns
the first call's output and the replayed tokens concatenate to it. -/
theorem cache_callback_equivalence_witness :
    invokeResult okProvider (invokeCacheAfter okProvider [] "Hello") "Hello" = .ok "Hello!" ∧
    concatChunks (tokensOf
      (invokeTrace okProvider (invokeCacheAfter okProvider [] "Hello") "Hello")) = "Hello!" :=
  cache_callback_equivalence okProvider [] "Hello" "Hello!" rfl

/-- In `A ++ [z]`, an occurrence of an element not appearing in `A` must be
the final position. -/
theorem occurrence_last {α : Type} (A : List α) (z x : α) (pre post : List α)
    (h : A ++ [z] = pre ++ x :: post) (hx : x ∉ A) : post = [] := by
  rcases List.append_eq_append_iff.mp h with ⟨a2, ha, hb⟩ | ⟨c2, hc, hd⟩
  · cases a2 with
    | nil =>
      simp at hb
      exact hb.2
    | cons y a3 =>
      have := congrArg List.length hb
      simp at this
  · cases c2 with
    | nil =>
      simp at hd
      exact hd.2
    | cons y c3 =>
      have hxy : x = y := by
        have := congrArg (fun l => l.head?) hd
        simpa using this
      subst hxy
      exact absurd (hc ▸ List.mem_append_right pre (List.mem_cons_self x c3)) hx

/-- The start event does not occur in the token/terminal tail of a trace. -/
theorem startEv_not_in_tail (l : List String) (fin : Event)
    (hfin : isFinalEv fin = true) :
    Event.startEv ∉ List.map Event.tokenEv l ++ [fin] := by
  intro hmem
  rcases List.mem_append.mp hmem with hmap | hfin2
  · rcases List.mem_map.mp hmap with ⟨s, _, hs⟩
    exact absurd hs (by intro h2; cases h2)
  · have : Event.startEv = fin := by simpa using hfin2
    rw [← this] at hfin
    simp [isFinalEv] at hfin

/-- Ordering properties of a trace of the shape
`start :: tokens ++ [terminal]`. -/
theorem traceShape_ordering (l : List String) (fin : Event)
    (hfin : isFinalEv fin = true) :
    (∀ pre post,
      Event.startEv :: List.map Event.tokenEv l ++ [fin] = pre ++ Event.startEv :: post →
      pre = []) ∧
    (∀ pre x post,
      Event.startEv :: List.map Event.tokenEv l ++ [fin] = pre ++ x :: post →
      isFinalEv x = true → post = []) := by
  constructor
  · intro pre post h
    cases pre with
    | nil => rfl
    | cons a pre2 =>
      simp only [List.cons_append] at h
      have htail : List.map Event.tokenEv l ++ [fin] = pre2 ++ Event.startEv :: post :=
        (List.cons.injEq _ _ _ _ ▸ h).2
      have : Event.startEv ∈ List.map Event.tokenEv l ++ [fin] := by
        rw [htail]
        exact List.mem_append_right pre2 (List.mem_cons_self _ _)
      exact absurd this (startEv_not_in_tail l fin hfin)
  · intro pre x post h hx
    cases pre with
    | nil =>
      simp at h
      rw [← h.1] at hx
      simp [isFinalEv] at hx
    | cons a pre2 =>
      simp only [List.cons_append] at h
      have htail : List.map Event.tokenEv l ++ [fin] = pre2 ++ x :: post :=
        (List.cons.injEq _ _ _ _ ▸ h).2
      refine occurrence_last (List.map Event.tokenEv l) fin x pre2 post htail ?_
      intro hmem
      rcases List.mem_map.mp hmem with ⟨s, _, hs⟩
      rw [← hs] at hx
      simp [isTokenEv, isFinalEv] at hx

/-- C3: for every single invocation, the dispatched callback order satisfies:
the trace opens with the start event, the start event occurs nowhere else
(hence before every new-token event), any end or error event is the last
event dispatched (hence after every new-token event), and never are both an
end and an error event dispatched for the same invocation. -/
theorem dispatch_ordering :
    ∀ (provider : String → ProviderRun) (cache : ModelCache) (input : String),
      (invokeTrace provider cache input).head? = some Event.startEv ∧
      (∀ pre post,
        invokeTrace provider cache input = pre ++ Event.startEv :: post → pre = []) ∧
      (∀ pre x post,
        invokeTrace provider cache input = pre ++ x :: post →
        isFinalEv x = true → post = []) ∧
      ¬(∃ c m, Event.endEv c ∈ invokeTrace provider cache input ∧
          Event.errorEv m ∈ invokeTrace provider cache input) := by
  intro provider cache input
  unfold invokeTrace
  cases hl : lookupCache cache input with
  | some chunks =>
    rw [invokeModel_hit provider cache input chunks hl]
    refine ⟨rfl,
      (traceShape_ordering chunks (Event.endEv (concatChunks chunks)) rfl).1,
      (traceShape_ordering chunks (Event.endEv (concatChunks chunks)) rfl).2, ?_⟩
    rintro ⟨c, m, _, hm⟩
    simp at hm
  | none =>
    cases hf : (provider input).failMsg with
    | none =>
      rw [invokeModel_miss_ok provider cache input hl hf]
      refine ⟨rfl,
        (traceShape_ordering (provider input).chunks
          (Event.endEv (concatChunks (provider input).chunks)) rfl).1,
        (traceShape_ordering (provider input).chunks
          (Event.endEv (concatChunks (provider input).chunks)) rfl).2, ?_⟩
      rintro ⟨c, m, _, hm⟩
      simp at hm
    | some e =>
      rw [invokeModel_miss_fail provider cache input e hl hf]
      refine ⟨rfl,
        (traceShape_ordering (provider input).chunks (Event.errorEv e) rfl).1,
        (traceShape_ordering (provider input).chunks (Event.errorEv e) rfl).2, ?_⟩
      rintro ⟨c, m, hc, _⟩
      simp at hc

/-- Witness for C3 at a concrete invocation: the trace is concretely
`[start, token, token, end]`, its head is the start event, and the end event
at the concrete final decomposition has nothing after it. -/
theorem dispatch_ordering_witness :
    invokeTrace okProvider [] "Hi" =
      [Event.startEv, Event.tokenEv "Hi", Event.tokenEv "!", Event.endEv "Hi!"] ∧
    (invokeTrace okProvider [] "Hi").head? = some Event.startEv ∧
    ([] : List Event) = [] :=
  ⟨rfl, (dispatch_ordering okProvider [] "Hi").1,
   (dispatch_ordering okProvider [] "Hi").2.2.1
     [Event.startEv, Event.tokenEv "Hi", Event.tokenEv "!"] (Event.endEv "Hi!") [] rfl rfl⟩

/-- C4: a callback handler that raises (here: on a new-token event) does not
prevent dispatch of events to the remaining handlers (every dispatch reaches
all registered handlers), does not prevent delivery of the end event, and
does not change the invocation's own outcome as returned to the caller. -/
theorem handler_isolation :
    ∀ (provider : String → ProviderRun) (cache : ModelCache) (input : String)
      (hs : List Handler) (h : Handler) (s : String),
      h ∈ hs → h (Event.tokenEv s) = true →
      (∀ e : Event, (dispatchAll hs e).length = hs.length) ∧
      (∀ c, invokeResult provider cache input = .ok c →
        (Event.endEv c, dispatchAll hs (Event.endEv c)) ∈
          (invokeWithHandlers provider cache input hs).2.1) ∧
      (invokeWithHandlers provider cache input hs).1 = invokeResult provider cache input := by
  intro provider cache input hs h s hmem hraise
  refine ⟨?_, ?_, ?_⟩
  · intro e; simp [dispatchAll]
  · intro c hc
    have hend : Event.endEv c ∈ (invokeModel provider cache input).2.1 := by
      unfold invokeResult at hc
      cases hl : lookupCache cache input with
      | some chunks =>
        rw [invokeModel_hit provider cache input chunks hl] at hc ⊢
        simp at hc
        subst hc
        simp
      | none =>
        cases hf : (provider input).failMsg with
        | none =>
          rw [invokeModel_miss_ok provider cache input hl hf] at hc ⊢
          simp at hc
          subst hc
          simp
        | some e =>
          rw [invokeModel_miss_fail provider cache input e hl hf] at hc
          simp at hc
    unfold invokeWithHandlers
    exact List.mem_map_of_mem (fun e => (e, dispatchAll hs e)) hend
  · rfl

/-- Witness for C4 at a concrete raising handler: the handler raises on every
token, yet the end event is dispatched to all (one) handlers and the
invocation returns its result unchanged. -/
theorem handler_isolation_witness :
    (dispatchAll [raisingHandler] (Event.tokenEv "Hi")).length = 1 ∧
    (Event.endEv "Hi!", dispatchAll [raisingHandler] (Event.endEv "Hi!")) ∈
      (invokeWithHandlers okProvider [] "Hi" [raisingHandler]).2.1 ∧
    (invokeWithHandlers okProvider [] "Hi" [raisingHandler]).1 =
      invokeResult okProvider [] "Hi" :=
  ⟨(handler_isolation okProvider [] "Hi" [raisingHandler] raisingHandler "Hi"
      (List.mem_singleton.mpr rfl) rfl).1 (Event.tokenEv "Hi"),
   (handler_isolation okProvider [] "Hi" [raisingHandler] raisingHandler "Hi"
      (List.mem_singleton.mpr rfl) rfl).2.1 "Hi!" rfl,
   (handler_isolation okProvider [] "Hi" [raisingHandler] raisingHandler "Hi"
      (List.mem_singleton.mpr rfl) rfl).2.2⟩

/-- The lexicographic order is irreflexive. -/
theorem lexLt_irrefl : ∀ l : List Char, lexLt l l = false := by
  intro l
  induction l with
  | nil => rfl
  | cons a as ih => simp [lexLt, lt_irrefl, ih]

/-- The lexicographic order is asymmetric. -/
theorem lexLt_asymm : ∀ l1 l2 : List Char, lexLt l1 l2 = true → lexLt l2 l1 = false := by
  intro l1
  induction l1 with
  | nil => intro l2 h; cases l2 <;> rfl
  | cons a as ih =>
    intro l2 h
    cases l2 with
    | nil => exact absurd h (by simp [lexLt])
    | cons b bs =>
      by_cases hab : a < b
      · simp [lexLt, hab, lt_asymm hab]
      · by_cases hba : b < a
        · simp [lexLt, hab, hba] at h
        · simp [lexLt, hab, hba] at h ⊢
          exact ih bs h

/-- The lexicographic order is transitive. -/
theorem lexLt_trans : ∀ l1 l2 l3 : List Char,
    lexLt l1 l2 = true → lexLt l2 l3 = true → lexLt l1 l3 = true := by
  intro l1
  induction l1 with
  | nil =>
    intro l2 l3 h1 h2
    cases l3 with
    | nil => exact absurd h2 (by cases l2 <;> simp [lexLt])
    | cons c cs => rfl
  | cons a as ih =>
    intro l2 l3 h1 h2
    cases l2 with
    | nil => exact absurd h1 (by simp [lexLt])
    | cons b bs =>
      cases l3 with
      | nil => exact absurd h2 (by simp [lexLt])
      | cons c cs =>
        by_cases hab : a < b
        · by_cases hbc : b < c
          · simp [lexLt, lt_trans hab hbc]
          · by_cases hcb : c < b
            · simp [lexLt, hbc, hcb] at h2
            · have hbceq : b = c := le_antisymm (not_lt.mp hcb) (not_lt.mp hbc)
              subst hbceq
              simp [lexLt, hab]
        · by_cases hba : b < a
          · simp [lexLt, hab, hba] at h1
          · have habeq : a = b := le_antisymm (not_lt.mp hba) (not_lt.mp hab)
            subst habeq
            simp [lexLt, hab] at h1
            by_cases hac : a < c
            · simp [lexLt, hac]
            · by_cases hca : c < a
              · simp [lexLt, hac, hca] at h2
              · simp [lexLt, hac, hca] at h2 ⊢
                exact ih bs cs h1 h2

/-- Two lists unrelated in either direction by the lexicographic order are
equal. -/
theorem lexLt_eq_of_both_false : ∀ l1 l2 : List Char,
    lexLt l1 l2 = false → lexLt l2 l1 = false → l1 = l2 := by
  intro l1
  induction l1 with
  | nil =>
    intro l2 h1 h2
    cases l2 with
    | nil => rfl
    | cons b bs => simp [lexLt] at h1
  | cons a as ih =>
    intro l2 h1 h2
    cases l2 with
    | nil => simp [lexLt] at h2
    | cons b bs =>
      by_cases hab : a < b
      · simp [lexLt, hab] at h1
      · by_cases hba : b < a
        · simp [lexLt, hba] at h2
        · have habeq : a = b := le_antisymm (not_lt.mp hba) (not_lt.mp hab)
          simp [lexLt, hab, hba] at h1 h2
          rw [habeq, ih bs h1 h2]

/-- Strings with equal character data are equal. -/
theorem str_data_inj {a b : String} (h : a.data = b.data) : a = b := by
  cases a; cases b; exact congrArg String.mk h

instance : IsTotal String strLeRel := ⟨by
  intro a b
  unfold strLeRel strLe
  cases hb : lexLt b.data a.data with
  | false => left; simp [hb]
  | true => right; simp [lexLt_asymm _ _ hb]⟩

instance : IsTrans String strLeRel := ⟨by
  intro a b c h1 h2
  have h1f : lexLt b.data a.data = false := by simpa [strLeRel, strLe] using h1
  have h2f : lexLt c.data b.data = false := by simpa [strLeRel, strLe] using h2
  have hs : lexLt c.data a.data = false := by
    cases hct : lexLt c.data a.data with
    | false => rfl
    | true =>
      cases hbc : lexLt b.data c.data with
      | true => exact absurd (lexLt_trans _ _ _ hbc hct) (by simp [h1f])
      | false =>
        have hbceq : b.data = c.data := lexLt_eq_of_both_false _ _ hbc h2f
        rw [← hbceq] at hct
        exact absurd hct (by simp [h1f])
  simpa [strLeRel, strLe] using hs⟩

instance : IsAntisymm String strLeRel := ⟨by
  intro a b h1 h2
  have h1f : lexLt b.data a.data = false := by simpa [strLeRel, strLe] using h1
  have h2f : lexLt a.data b.data = false := by simpa [strLeRel, strLe] using h2
  exact str_data_inj (lexLt_eq_of_both_false _ _ h2f h1f)⟩

/-- Sorting permutes its input. -/
theorem sortStrings_perm (l : List String) : (sortStrings l).Perm l :=
  List.perm_insertionSort strLeRel l

/-- The sort output is sorted. -/
theorem sortStrings_sorted (l : List String) : List.Sorted strLeRel (sortStrings l) :=
  List.sorted_insertionSort strLeRel l

/-- Sorting is invariant under permutation of the input. -/
theorem sortStrings_congr (l1 l2 : List String) (h : l1.Perm l2) :
    sortStrings l1 = sortStrings l2 :=
  List.eq_of_perm_of_sorted ((sortStrings_perm l1).trans (h.trans (sortStrings_perm l2).symm))
    (sortStrings_sorted l1) (sortStrings_sorted l2)

/-- Keys of a cons. -/
theorem recKeys_cons (p : String × JsValue) (r : JsRecord) :
    recKeys (p :: r) = p.1 :: recKeys r := rfl

/-- Keys of an append. -/
theorem recKeys_append (a b : JsRecord) :
    recKeys (a ++ b) = recKeys a ++ recKeys b := List.map_append _ _ _

/-- The tail of a duplicate-free record is duplicate-free. -/
theorem nodupKeys_tail {p : String × JsValue} {r : JsRecord}
    (h : NodupKeys (p :: r)) : NodupKeys r := by
  unfold NodupKeys at h ⊢
  rw [recKeys_cons] at h
  exact (List.nodup_cons.mp h).2

/-- The head key of a duplicate-free record does not recur in the tail. -/
theorem nodupKeys_head {p : String × JsValue} {r : JsRecord}
    (h : NodupKeys (p :: r)) : p.1 ∉ recKeys r := by
  unfold NodupKeys at h
  rw [recKeys_cons] at h
  exact (List.nodup_cons.mp h).1

/-- Keys after an assignment come from the record or are the assigned key. -/
theorem upsert_keys_sub : ∀ (r : JsRecord) (k : String) (v : JsValue) (x : String),
    x ∈ recKeys (upsert r k v) → x ∈ recKeys r ∨ x = k := by
  intro r k v
  induction r with
  | nil =>
    intro x hx
    right
    simpa [upsert, recKeys] using hx
  | cons p rest ih =>
    intro x hx
    by_cases hp : p.1 == k
    · simp [upsert, hp, recKeys_cons] at hx
      rcases hx with h | h
      · right; exact h
      · left; rw [recKeys_cons]; exact List.mem_cons_of_mem _ h
    · simp [upsert, hp, recKeys_cons] at hx
      rcases hx with h | h
      · left; rw [recKeys_cons, h]; exact List.mem_cons_self _ _
      · rcases ih x h with h2 | h2
        · left; rw [recKeys_cons]; exact List.mem_cons_of_mem _ h2
        · right; exact h2

/-- Assignment preserves key uniqueness. -/
theorem upsert_nodup : ∀ (r : JsRecord) (k : String) (v : JsValue),
    NodupKeys r → NodupKeys (upsert r k v) := by
  intro r k v
  induction r with
  | nil => intro _; simp [upsert, NodupKeys, recKeys]
  | cons p rest ih =>
    intro hn
    have hhead := nodupKeys_head hn
    have htail := nodupKeys_tail hn
    by_cases hp : p.1 == k
    · have hpk : p.1 = k := by simpa using hp
      unfold NodupKeys
      simp only [upsert, hp, if_true, recKeys_cons]
      rw [List.nodup_cons]
      exact ⟨hpk ▸ hhead, htail⟩
    · unfold NodupKeys
      simp only [upsert, hp, if_false, Bool.false_eq_true, recKeys_cons]
      rw [List.nodup_cons]
      constructor
      · intro hmem
        rcases upsert_keys_sub rest k v p.1 hmem with h2 | h2
        · exact hhead h2
        · exact absurd h2 (by simpa using hp)
      · exact ih htail

/-- Permutation preserves key uniqueness. -/
theorem nodupKeys_perm {r1 r2 : JsRecord} (h : r1.Perm r2) :
    NodupKeys r1 → NodupKeys r2 :=
  fun hn => ((h.map Prod.fst).nodup_iff).mp hn

/-- Assignment respects permutation of records without duplicate keys. -/
theorem upsert_perm (k : String) (v : JsValue) :
    ∀ {r1 r2 : JsRecord}, r1.Perm r2 → NodupKeys r1 →
      (upsert r1 k v).Perm (upsert r2 k v) := by
  intro r1 r2 h
  induction h with
  | nil => intro _; exact List.Perm.refl _
  | cons p hsub ih =>
    intro hn
    by_cases hp : p.1 == k
    · simp only [upsert, hp, if_true]
      exact List.Perm.cons (k, v) hsub
    · simp only [upsert, hp, if_false, Bool.false_eq_true]
      exact List.Perm.cons p (ih (nodupKeys_tail hn))
  | swap x y l =>
    intro hn
    have hxy : y.1 ≠ x.1 := by
      have := nodupKeys_head hn
      intro he
      exact this (he ▸ List.mem_cons_self _ _)
    by_cases hx : x.1 == k
    · have hy : (y.1 == k) = false := by
        have hxk : x.1 = k := by simpa using hx
        exact beq_eq_false_iff_ne.mpr (hxk ▸ hxy)
      simp only [upsert, hx, hy, if_true, if_false, Bool.false_eq_true]
      exact List.Perm.swap _ _ _
    · by_cases hy : y.1 == k
      · simp only [upsert, hx, hy, if_true, if_false, Bool.false_eq_true]
        exact List.Perm.swap _ _ _
      · simp only [upsert, hx, hy, if_false, Bool.false_eq_true]
        exact List.Perm.swap _ _ _
  | trans h1 h2 ih1 ih2 =>
    intro hn
    exact (ih1 hn).trans (ih2 (nodupKeys_perm h1 hn))

/-- Assignments at distinct keys commute up to permutation. -/
theorem upsert_comm {k1 k2 : String} (hk : k1 ≠ k2) :
    ∀ (r : JsRecord) (v1 v2 : JsValue),
      (upsert (upsert r k1 v1) k2 v2).Perm (upsert (upsert r k2 v2) k1 v1) := by
  intro r
  have h12 : (k1 == k2) = false := beq_eq_false_iff_ne.mpr hk
  have h21 : (k2 == k1) = false := beq_eq_false_iff_ne.mpr (Ne.symm hk)
  induction r with
  | nil =>
    intro v1 v2
    simp only [upsert, h12, h21, if_false, Bool.false_eq_true]
    exact List.Perm.swap _ _ _
  | cons p rest ih =>
    intro v1 v2
    by_cases hp1 : p.1 == k1
    · have hp2 : (p.1 == k2) = false := by
        have : p.1 = k1 := by simpa using hp1
        exact beq_eq_false_iff_ne.mpr (this ▸ hk)
      simp only [upsert, hp1, hp2, h12, h21, if_true, if_false, Bool.false_eq_true]
      exact List.Perm.refl _
    · by_cases hp2 : p.1 == k2
      · simp only [upsert, hp1, hp2, h12, h21, if_true, if_false, Bool.false_eq_true]
        exact List.Perm.refl _
      · simp only [upsert, hp1, hp2, if_false, Bool.false_eq_true]
        exact List.Perm.cons p (ih v1 v2)

/-- Spread respects permutation of the accumulator. -/
theorem spreadMerge_acc_perm : ∀ (os : JsRecord) {acc1 acc2 : JsRecord},
    acc1.Perm acc2 → NodupKeys acc1 →
    (spreadMerge acc1 os).Perm (spreadMerge acc2 os) := by
  intro os
  induction os with
  | nil => intro acc1 acc2 h _; exact h
  | cons q os2 ih =>
    intro acc1 acc2 h hn
    exact ih (upsert_perm q.1 q.2 h hn) (upsert_nodup acc1 q.1 q.2 hn)

/-- Spread preserves key uniqueness. -/
theorem spreadMerge_nodup : ∀ (os acc : JsRecord),
    NodupKeys acc → NodupKeys (spreadMerge acc os) := by
  intro os
  induction os with
  | nil => intro acc h; exact h
  | cons q os2 ih => intro acc h; exact ih _ (upsert_nodup acc q.1 q.2 h)

/-- Spread respects permutation of the spread-in options. -/
theorem spreadMerge_opts_perm : ∀ {os1 os2 : JsRecord}, os1.Perm os2 →
    ∀ acc : JsRecord, NodupKeys os1 → NodupKeys acc →
    (spreadMerge acc os1).Perm (spreadMerge acc os2) := by
  intro os1 os2 h
  induction h with
  | nil => intro acc _ _; exact List.Perm.refl _
  | cons q hsub ih =>
    intro acc hn hacc
    exact ih _ (nodupKeys_tail hn) (upsert_nodup acc q.1 q.2 hacc)
  | swap x y l =>
    intro acc hn hacc
    have hxy : y.1 ≠ x.1 := by
      have := nodupKeys_head hn
      intro he
      exact this (he ▸ List.mem_cons_self _ _)
    show (spreadMerge (upsert (upsert acc y.1 y.2) x.1 x.2) l).Perm
      (spreadMerge (upsert (upsert acc x.1 x.2) y.1 y.2) l)
    exact spreadMerge_acc_perm l (upsert_comm hxy acc y.2 x.2)
      (upsert_nodup _ _ _ (upsert_nodup acc y.1 y.2 hacc))
  | trans h1 h2 ih1 ih2 =>
    intro acc hn hacc
    exact (ih1 acc hn hacc).trans (ih2 acc (nodupKeys_perm h1 hn) hacc)

/-- Assigning an absent key appends the property. -/
theorem upsert_absent : ∀ (r : JsRecord) (k : String) (v : JsValue),
    k ∉ recKeys r → upsert r k v = r ++ [(k, v)] := by
  intro r k v
  induction r with
  | nil => intro _; rfl
  | cons p rest ih =>
    intro h
    have hp : (p.1 == k) = false := by
      refine beq_eq_false_iff_ne.mpr ?_
      intro he
      exact h (by rw [recKeys_cons, he]; exact List.mem_cons_self _ _)
    have htail : k ∉ recKeys rest := fun hm =>
      h (by rw [recKeys_cons]; exact List.mem_cons_of_mem _ hm)
    simp [upsert, hp, ih htail]

/-- Assigning a key present in the left part of an append touches only the
left part. -/
theorem upsert_append_left : ∀ (M rest : JsRecord) (k2 : String) (v : JsValue),
    k2 ∈ recKeys M → upsert (M ++ rest) k2 v = upsert M k2 v ++ rest := by
  intro M
  induction M with
  | nil => intro rest k2 v h; simp [recKeys] at h
  | cons p M2 ih =>
    intro rest k2 v h
    by_cases hp : p.1 == k2
    · simp [upsert, hp]
    · have h2 : k2 ∈ recKeys M2 := by
        rw [recKeys_cons] at h
        rcases List.mem_cons.mp h with he | hm
        · exact absurd he.symm (by simpa using hp)
        · exact hm
      simp [upsert, hp, ih rest k2 v h2]

/-- Assigning a key absent from the left part of an append passes it
through. -/
theorem upsert_append_notleft : ∀ (M N : JsRecord) (k2 : String) (v : JsValue),
    k2 ∉ recKeys M → upsert (M ++ N) k2 v = M ++ upsert N k2 v := by
  intro M
  induction M with
  | nil => intro N k2 v _; rfl
  | cons p M2 ih =>
    intro N k2 v h
    have hp : (p.1 == k2) = false := by
      refine beq_eq_false_iff_ne.mpr ?_
      intro he
      exact h (by rw [recKeys_cons, he]; exact List.mem_cons_self _ _)
    have htail : k2 ∉ recKeys M2 := fun hm =>
      h (by rw [recKeys_cons]; exact List.mem_cons_of_mem _ hm)
    simp [upsert, hp, ih N k2 v htail]

/-- The first occurrence of a present key splits the record. -/
theorem mem_first_decomp : ∀ (r : JsRecord) (k : String), k ∈ recKeys r →
    ∃ M w N, r = M ++ (k, w) :: N ∧ k ∉ recKeys M := by
  intro r k
  induction r with
  | nil => intro h; simp [recKeys] at h
  | cons p rest ih =>
    intro h
    by_cases hp : p.1 = k
    · refine ⟨[], p.2, rest, ?_, by simp [recKeys]⟩
      simp [← hp]
    · have h2 : k ∈ recKeys rest := by
        rw [recKeys_cons] at h
        rcases List.mem_cons.mp h with he | hm
        · exact absurd he.symm hp
        · exact hm
      obtain ⟨M, w, N, hMN, hkM⟩ := ih h2
      refine ⟨p :: M, w, N, by rw [hMN]; rfl, ?_⟩
      rw [recKeys_cons]
      intro hmem
      rcases List.mem_cons.mp hmem with he | hm
      · exact hp he.symm
      · exact hkM hm

/-- Assigning over the unique occurrence of a key replaces its value in
place. -/
theorem upsert_mid (M N : JsRecord) (k : String) (w v : JsValue)
    (h : k ∉ recKeys M) : upsert (M ++ (k, w) :: N) k v = M ++ (k, v) :: N := by
  rw [upsert_append_notleft M ((k, w) :: N) k v h]
  simp [upsert]

/-- Keys of a spread come from the accumulator or the spread-in options. -/
theorem spreadMerge_keys_sub : ∀ (os acc : JsRecord) (x : String),
    x ∈ recKeys (spreadMerge acc os) → x ∈ recKeys acc ∨ x ∈ recKeys os := by
  intro os
  induction os with
  | nil => intro acc x h; left; exact h
  | cons q os2 ih =>
    intro acc x h
    rcases ih _ x h with h2 | h2
    · rcases upsert_keys_sub acc q.1 q.2 x h2 with h3 | h3
      · left; exact h3
      · right; rw [recKeys_cons, h3]; exact List.mem_cons_self _ _
    · right; rw [recKeys_cons]; exact List.mem_cons_of_mem _ h2

/-- Spreading options that avoid a key `k` over a record split at `k` keeps
the split: the surrounding parts evolve independently of the value at `k`,
and identically to a record without the `k` property. -/
theorem spreadMerge_pair_decomp : ∀ (os : JsRecord) (k : String), k ∉ recKeys os →
    ∀ M N : JsRecord, ∃ M2 N2 : JsRecord,
      (∀ w : JsValue, spreadMerge (M ++ (k, w) :: N) os = M2 ++ (k, w) :: N2) ∧
      spreadMerge (M ++ N) os = M2 ++ N2 := by
  intro os
  induction os with
  | nil => intro k _ M N; exact ⟨M, N, fun w => rfl, rfl⟩
  | cons q os2 ih =>
    intro k hk M N
    have hqk : q.1 ≠ k := by
      intro he
      exact hk (by rw [recKeys_cons, he]; exact List.mem_cons_self _ _)
    have hk2 : k ∉ recKeys os2 := fun hm =>
      hk (by rw [recKeys_cons]; exact List.mem_cons_of_mem _ hm)
    by_cases hq : q.1 ∈ recKeys M
    · obtain ⟨M2, N2, h1, h2⟩ := ih k hk2 (upsert M q.1 q.2) N
      refine ⟨M2, N2, ?_, ?_⟩
      · intro w
        show spreadMerge (upsert (M ++ (k, w) :: N) q.1 q.2) os2 = M2 ++ (k, w) :: N2
        rw [upsert_append_left M ((k, w) :: N) q.1 q.2 hq]
        exact h1 w
      · show spreadMerge (upsert (M ++ N) q.1 q.2) os2 = M2 ++ N2
        rw [upsert_append_left M N q.1 q.2 hq]
        exact h2
    · obtain ⟨M2, N2, h1, h2⟩ := ih k hk2 M (upsert N q.1 q.2)
      refine ⟨M2, N2, ?_, ?_⟩
      · intro w
        show spreadMerge (upsert (M ++ (k, w) :: N) q.1 q.2) os2 = M2 ++ (k, w) :: N2
        have hstep : upsert (M ++ (k, w) :: N) q.1 q.2 =
            M ++ (k, w) :: upsert N q.1 q.2 := by
          have hnot : q.1 ∉ recKeys (M ++ [(k, w)]) := by
            rw [recKeys_append]
            intro hmem
            rcases List.mem_append.mp hmem with hm | hm
            · exact hq hm
            · exact hqk (by simpa [recKeys] using hm)
          calc upsert (M ++ (k, w) :: N) q.1 q.2
              = upsert ((M ++ [(k, w)]) ++ N) q.1 q.2 := by simp
            _ = (M ++ [(k, w)]) ++ upsert N q.1 q.2 :=
                upsert_append_notleft (M ++ [(k, w)]) N q.1 q.2 hnot
            _ = M ++ (k, w) :: upsert N q.1 q.2 := by simp
        rw [hstep]
        exact h1 w
      · show spreadMerge (upsert (M ++ N) q.1 q.2) os2 = M2 ++ N2
        rw [upsert_append_notleft M N q.1 q.2 hq]
        exact h2

/-- C9 (counterexample to the claim as stated): an option explicitly present
with value `undefined` does not always give the same cache key as that option
entirely absent — when the option name shadows an identifying parameter, the
spread overwrites the parameter with `undefined`, the filter then removes it,
and the key loses the parameter entry that the option-absent key keeps. -/
theorem cacheKey_undef_shadow_counterexample :
    serializedCacheKeyParametersForCall [("a", JsValue.numV 1)] [("a", JsValue.undef)] "t" "m" ≠
      serializedCacheKeyParametersForCall [("a", JsValue.numV 1)] [] "t" "m" := by
  decide

/-- C9 (amended): entries with `undefined` values are filtered out before
serialization, so for an option name that does not shadow an identifying
parameter (nor the `_type`/`_model` tags), the cache key with the option
present as `undefined` equals the key with the option entirely absent. -/
theorem cacheKey_undef_option_eq :
    ∀ (idp l rtail : JsRecord) (k t m : String),
      k ∉ recKeys idp → k ∉ recKeys l → k ∉ recKeys rtail →
      k ≠ "_type" → k ≠ "_model" →
      serializedCacheKeyParametersForCall idp (l ++ (k, JsValue.undef) :: rtail) t m =
        serializedCacheKeyParametersForCall idp (l ++ rtail) t m := by
  intro idp l rtail k t m hki hkl hkr ht hm
  have hsplit1 : spreadMerge idp (l ++ (k, JsValue.undef) :: rtail) =
      spreadMerge (upsert (spreadMerge idp l) k JsValue.undef) rtail := by
    unfold spreadMerge
    rw [List.foldl_append]
    rfl
  have hsplit2 : spreadMerge idp (l ++ rtail) =
      spreadMerge (spreadMerge idp l) rtail := by
    unfold spreadMerge
    rw [List.foldl_append]
  have hkX : k ∉ recKeys (spreadMerge idp l) := by
    intro hm2
    rcases spreadMerge_keys_sub l idp k hm2 with h2 | h2
    · exact hki h2
    · exact hkl h2
  have habs : upsert (spreadMerge idp l) k JsValue.undef =
      spreadMerge idp l ++ (k, JsValue.undef) :: [] := by
    rw [upsert_absent _ _ _ hkX]
  have hkTags : k ∉ recKeys (typeTags t m) := by
    simp [typeTags, recKeys]
    exact ⟨ht, hm⟩
  obtain ⟨M2, N2, h1, h2⟩ := spreadMerge_pair_decomp rtail k hkr (spreadMerge idp l) []
  obtain ⟨M3, N3, g1, g2⟩ := spreadMerge_pair_decomp (typeTags t m) k hkTags M2 N2
  have hfin1 : spreadMerge (spreadMerge idp (l ++ (k, JsValue.undef) :: rtail))
      (typeTags t m) = M3 ++ (k, JsValue.undef) :: N3 := by
    rw [hsplit1, habs, h1 JsValue.undef]
    exact g1 JsValue.undef
  have hfin2 : spreadMerge (spreadMerge idp (l ++ rtail)) (typeTags t m) =
      M3 ++ N3 := by
    rw [hsplit2]
    have : spreadMerge (spreadMerge idp l) rtail =
        spreadMerge (spreadMerge idp l ++ []) rtail := by simp
    rw [this, h2]
    exact g2
  show joinComma (sortStrings (List.map _ (List.filter _
      (spreadMerge (spreadMerge idp (l ++ (k, JsValue.undef) :: rtail)) (typeTags t m))))) =
    joinComma (sortStrings (List.map _ (List.filter _
      (spreadMerge (spreadMerge idp (l ++ rtail)) (typeTags t m)))))
  rw [hfin1, hfin2]
  have hfil : List.filter (fun p : String × JsValue => isDef p.2)
      (M3 ++ (k, JsValue.undef) :: N3) =
      List.filter (fun p : String × JsValue => isDef p.2) (M3 ++ N3) := by
    simp [List.filter_append, List.filter_cons, isDef]
  rw [hfil]

/-- Witness for (amended) C9 at a concrete record: an unrelated option set to
`undefined` leaves the cache key unchanged. -/
theorem cacheKey_undef_option_eq_witness :
    serializedCacheKeyParametersForCall [("b", JsValue.numV 2)] [("a", JsValue.undef)] "t" "m" =
      serializedCacheKeyParametersForCall [("b", JsValue.numV 2)] [] "t" "m" :=
  cacheKey_undef_option_eq [("b", JsValue.numV 2)] [] [] "a" "t" "m"
    (by decide) (by decide) (by decide) (by decide) (by decide)

/-- The cache key as a single expression. -/
theorem cacheKey_eq_form (idp opts : JsRecord) (t m : String) :
    serializedCacheKeyParametersForCall idp opts t m =
      joinComma (sortStrings
        (List.map (fun p : String × JsValue => p.1 ++ ":" ++ stringifyTop p.2)
          (List.filter (fun p => isDef p.2)
            (spreadMerge (spreadMerge idp opts) (typeTags t m))))) := rfl

/-- Join of a cons with a nonempty tail. -/
theorem joinComma_cons (s : String) (l : List String) (h : l ≠ []) :
    joinComma (s :: l) = s ++ "," ++ joinComma l := by
  cases l with
  | nil => exact absurd rfl h
  | cons t ts => rfl

/-- Right cancellation of string append. -/
theorem string_append_cancel_right {a b c : String} (h : a ++ c = b ++ c) : a = b := by
  apply str_data_inj
  have h2 := congrArg String.data h
  rw [String.data_append, String.data_append] at h2
  exact List.append_cancel_right h2

/-- Left cancellation of string append. -/
theorem string_append_cancel_left {a b c : String} (h : a ++ b = a ++ c) : b = c := by
  apply str_data_inj
  have h2 := congrArg String.data h
  rw [String.data_append, String.data_append] at h2
  exact List.append_cancel_left h2

/-- An ordered insert is never empty. -/
theorem orderedInsert_ne_nil (e : String) (S : List String) :
    List.orderedInsert strLeRel e S ≠ [] := by
  cases S with
  | nil => simp [List.orderedInsert]
  | cons b t =>
    rw [List.orderedInsert]
    split <;> simp

/-- Two elements comparing identically against every element of a sorted list
and producing the same comma join after ordered insertion are equal. -/
theorem orderedInsert_join_inj : ∀ (S : List String) (e1 e2 : String),
    (∀ s ∈ S, (strLeRel e1 s ↔ strLeRel e2 s)) →
    joinComma (List.orderedInsert strLeRel e1 S) =
      joinComma (List.orderedInsert strLeRel e2 S) →
    e1 = e2 := by
  intro S
  induction S with
  | nil => intro e1 e2 _ h; exact h
  | cons b S2 ih =>
    intro e1 e2 hiff h
    by_cases h1 : strLeRel e1 b
    · have h2 : strLeRel e2 b := (hiff b (List.mem_cons_self _ _)).mp h1
      rw [List.orderedInsert, List.orderedInsert, if_pos h1, if_pos h2] at h
      rw [joinComma_cons e1 (b :: S2) (by simp), joinComma_cons e2 (b :: S2) (by simp)] at h
      exact string_append_cancel_right (string_append_cancel_right h)
    · have h2 : ¬ strLeRel e2 b := fun hc => h1 ((hiff b (List.mem_cons_self _ _)).mpr hc)
      rw [List.orderedInsert, List.orderedInsert, if_neg h1, if_neg h2] at h
      rw [joinComma_cons b _ (orderedInsert_ne_nil e1 S2),
          joinComma_cons b _ (orderedInsert_ne_nil e2 S2)] at h
      have h3 := string_append_cancel_left h
      exact ih e1 e2 (fun s hs => hiff s (List.mem_cons_of_mem _ hs)) h3

/-- The lexicographic comparison of two `key ++ ":" ++ value` entries with
distinct colon-free keys does not depend on the value parts. -/
theorem lexLt_key_sep : ∀ (u v x y x2 y2 : List Char),
    u ≠ v → (':' : Char) ∉ u → (':' : Char) ∉ v →
    lexLt (u ++ ':' :: x) (v ++ ':' :: y) = lexLt (u ++ ':' :: x2) (v ++ ':' :: y2) := by
  intro u
  induction u with
  | nil =>
    intro v x y x2 y2 hne _ hcv
    cases v with
    | nil => exact absurd rfl hne
    | cons c v2 =>
      have hc : c ≠ ':' := fun he => hcv (he ▸ List.mem_cons_self _ _)
      show lexLt (':' :: x) (c :: (v2 ++ ':' :: y)) =
        lexLt (':' :: x2) (c :: (v2 ++ ':' :: y2))
      by_cases h1 : (':' : Char) < c
      · simp [lexLt, h1]
      · by_cases h2 : c < ':'
        · simp [lexLt, h1, h2]
        · exact absurd (le_antisymm (not_lt.mp h1) (not_lt.mp h2)) hc
  | cons a u2 ih =>
    intro v x y x2 y2 hne hcu hcv
    have hca : a ≠ ':' := fun he => hcu (he ▸ List.mem_cons_self _ _)
    cases v with
    | nil =>
      show lexLt (a :: (u2 ++ ':' :: x)) (':' :: y) =
        lexLt (a :: (u2 ++ ':' :: x2)) (':' :: y2)
      by_cases h1 : a < ':'
      · simp [lexLt, h1]
      · by_cases h2 : (':' : Char) < a
        · simp [lexLt, h1, h2]
        · exact absurd (le_antisymm (not_lt.mp h2) (not_lt.mp h1)) hca
    | cons b v2 =>
      show lexLt (a :: (u2 ++ ':' :: x)) (b :: (v2 ++ ':' :: y)) =
        lexLt (a :: (u2 ++ ':' :: x2)) (b :: (v2 ++ ':' :: y2))
      by_cases h1 : a < b
      · simp [lexLt, h1]
      · by_cases h2 : b < a
        · simp [lexLt, h1, h2]
        · have hab : a = b := le_antisymm (not_lt.mp h2) (not_lt.mp h1)
          subst hab
          have hne2 : u2 ≠ v2 := fun he => hne (by rw [he])
          have hcu2 : (':' : Char) ∉ u2 := fun hm2 => hcu (List.mem_cons_of_mem _ hm2)
          have hcv2 : (':' : Char) ∉ v2 := fun hm2 => hcv (List.mem_cons_of_mem _ hm2)
          simp only [lexLt, h1, h2, if_false]
          exact ih v2 x y x2 y2 hne2 hcu2 hcv2

/-- A `key ++ ":" ++ value` concatenation with colon-free keys determines the
key and the value. -/
theorem sep_eq : ∀ (u v x y : List Char),
    (':' : Char) ∉ u → (':' : Char) ∉ v →
    u ++ ':' :: x = v ++ ':' :: y → u = v ∧ x = y := by
  intro u
  induction u with
  | nil =>
    intro v x y _ hcv h
    cases v with
    | nil =>
      simp at h
      exact ⟨rfl, h⟩
    | cons b v2 =>
      have hb : b = ':' := by
        have h2 := congrArg (fun l : List Char => l.head?) h
        simpa using h2.symm
      exact absurd (hb ▸ List.mem_cons_self b v2) hcv
  | cons a u2 ih =>
    intro v x y hcu hcv h
    cases v with
    | nil =>
      have ha : a = ':' := by
        have h2 := congrArg (fun l : List Char => l.head?) h
        simpa using h2
      exact absurd (ha ▸ List.mem_cons_self a u2) hcu
    | cons b v2 =>
      rw [List.cons_append, List.cons_append] at h
      injection h with hab htail
      subst hab
      obtain ⟨hu, hx⟩ := ih v2 x y (fun hm => hcu (List.mem_cons_of_mem _ hm))
        (fun hm => hcv (List.mem_cons_of_mem _ hm)) htail
      exact ⟨by rw [hu], hx⟩

/-- Character data of a serialized entry. -/
theorem entry_data (k s : String) :
    (k ++ ":" ++ s).data = k.data ++ ':' :: s.data := by
  rw [String.data_append, String.data_append]
  show (k.data ++ [':']) ++ s.data = k.data ++ ':' :: s.data
  simp

/-- The sort relation between serialized entries with distinct colon-free keys
does not depend on the serialized values. -/
theorem entry_rel_indep (k1 k2 s1 s2 w : String)
    (hne : k1 ≠ k2) (h1 : ColonFree k1) (h2 : ColonFree k2) :
    (strLeRel (k1 ++ ":" ++ s1) (k2 ++ ":" ++ w) ↔
      strLeRel (k1 ++ ":" ++ s2) (k2 ++ ":" ++ w)) := by
  unfold strLeRel strLe
  rw [entry_data, entry_data, entry_data]
  have hdata : k2.data ≠ k1.data := fun he => hne (str_data_inj he).symm
  rw [lexLt_key_sep k2.data k1.data w.data s1.data w.data s2.data hdata h2 h1]

/-- Equal serialized entries with colon-free keys have equal keys and equal
serialized values. -/
theorem entry_eq_parts (k1 k2 s1 s2 : String) (h1 : ColonFree k1) (h2 : ColonFree k2)
    (h : k1 ++ ":" ++ s1 = k2 ++ ":" ++ s2) : k1 = k2 ∧ s1 = s2 := by
  have hd := congrArg String.data h
  rw [entry_data, entry_data] at hd
  obtain ⟨hu, hx⟩ := sep_eq _ _ _ _ h1 h2 hd
  exact ⟨str_data_inj hu, str_data_inj hx⟩

/-- In a duplicate-free list split around an element, the element appears in
neither part. -/
theorem nodup_append_cons {A B : List String} {k : String}
    (h : (A ++ k :: B).Nodup) : k ∉ A ∧ k ∉ B := by
  rw [List.nodup_append] at h
  obtain ⟨_, hB, hdis⟩ := h
  constructor
  · intro hkA
    exact hdis hkA (List.mem_cons_self _ _)
  · exact (List.nodup_cons.mp hB).1

/-- Sorting a cons is an ordered insert into the sorted tail. -/
theorem sortStrings_cons (e : String) (L : List String) :
    sortStrings (e :: L) = List.orderedInsert strLeRel e (sortStrings L) := rfl

/-- C2 (amended): the cache key is a deterministic function of the identifying
parameters, merged call options and type tags — invariant under the insertion
order of the options — and, for identifier-like (colon-free) option names, any
option value with a different JSON serialization produces a different key.
(Values with equal serializations, such as `\x7b\x7d` and `\x7b x: undefined \x7d`,
collide; see the counterexample.) -/
theorem cacheKey_determinism :
    (∀ (idp opts1 opts2 : JsRecord) (t m : String),
        NodupKeys idp → NodupKeys opts1 → opts1.Perm opts2 →
        serializedCacheKeyParametersForCall idp opts1 t m =
          serializedCacheKeyParametersForCall idp opts2 t m) ∧
    (∀ (idp l rtail : JsRecord) (k : String) (v1 v2 : JsValue) (t m : String),
        NodupKeys idp → NodupKeys (l ++ (k, v1) :: rtail) →
        ColonFreeKeys idp → ColonFreeKeys (l ++ (k, v1) :: rtail) →
        k ≠ "_type" → k ≠ "_model" →
        isDef v1 = true → isDef v2 = true →
        stringifyTop v1 ≠ stringifyTop v2 →
        serializedCacheKeyParametersForCall idp (l ++ (k, v1) :: rtail) t m ≠
          serializedCacheKeyParametersForCall idp (l ++ (k, v2) :: rtail) t m) := by
  constructor
  · intro idp o1 o2 t m hid hn h
    rw [cacheKey_eq_form, cacheKey_eq_form]
    have h1 := spreadMerge_opts_perm h idp hn hid
    have h2 := spreadMerge_acc_perm (typeTags t m) h1 (spreadMerge_nodup o1 idp hid)
    have h4 := (h2.filter (fun p => isDef p.2)).map
      (fun p : String × JsValue => p.1 ++ ":" ++ stringifyTop p.2)
    rw [sortStrings_congr _ _ h4]
  · intro idp l rtail k v1 v2 t m hid hn hcfi hcfo ht hm hd1 hd2 hvne heq
    have hkeys1 : recKeys (l ++ (k, v1) :: rtail) = recKeys l ++ k :: recKeys rtail := by
      simp [recKeys]
    have hn2 : (recKeys l ++ k :: recKeys rtail).Nodup := by
      have h0 := hn
      unfold NodupKeys at h0
      rwa [hkeys1] at h0
    obtain ⟨hkl, hkr⟩ := nodup_append_cons hn2
    have hkmem : k ∈ recKeys (l ++ (k, v1) :: rtail) := by
      rw [hkeys1]; exact List.mem_append_right _ (List.mem_cons_self _ _)
    have hcfk : ColonFree k := hcfo k hkmem
    have hsplit : ∀ v : JsValue, spreadMerge idp (l ++ (k, v) :: rtail) =
        spreadMerge (upsert (spreadMerge idp l) k v) rtail := by
      intro v
      unfold spreadMerge
      rw [List.foldl_append]
      rfl
    obtain ⟨M0, N0, hM0⟩ : ∃ M0 N0 : JsRecord, ∀ v : JsValue,
        upsert (spreadMerge idp l) k v = M0 ++ (k, v) :: N0 := by
      by_cases hkX : k ∈ recKeys (spreadMerge idp l)
      · obtain ⟨M0, w, N0, hX, hkM0⟩ := mem_first_decomp _ k hkX
        exact ⟨M0, N0, fun v => by rw [hX]; exact upsert_mid M0 N0 k w v hkM0⟩
      · exact ⟨spreadMerge idp l, [], fun v => by rw [upsert_absent _ _ _ hkX]⟩
    obtain ⟨M2, N2, h1, _⟩ := spreadMerge_pair_decomp rtail k hkr M0 N0
    have hkTags : k ∉ recKeys (typeTags t m) := by
      simp [typeTags, recKeys]
      exact ⟨ht, hm⟩
    obtain ⟨M3, N3, g1, _⟩ := spreadMerge_pair_decomp (typeTags t m) k hkTags M2 N2
    have hfin : ∀ v : JsValue,
        spreadMerge (spreadMerge idp (l ++ (k, v) :: rtail)) (typeTags t m) =
          M3 ++ (k, v) :: N3 := by
      intro v
      rw [hsplit v, hM0 v, h1 v]
      exact g1 v
    have hnodupF : NodupKeys (M3 ++ (k, v1) :: N3) := by
      rw [← hfin v1]
      exact spreadMerge_nodup _ _ (spreadMerge_nodup _ _ hid)
    have hkeysF : recKeys (M3 ++ (k, v1) :: N3) = recKeys M3 ++ k :: recKeys N3 := by
      simp [recKeys]
    have hnF : (recKeys M3 ++ k :: recKeys N3).Nodup := by
      have h0 := hnodupF
      unfold NodupKeys at h0
      rwa [hkeysF] at h0
    obtain ⟨hkM3, hkN3⟩ := nodup_append_cons hnF
    have hCF : ∀ x, x ∈ recKeys M3 ++ k :: recKeys N3 → ColonFree x := by
      intro x hx
      have hx2 : x ∈ recKeys (M3 ++ (k, v1) :: N3) := by rw [hkeysF]; exact hx
      rw [← hfin v1] at hx2
      rcases spreadMerge_keys_sub _ _ x hx2 with h2 | h2
      · rcases spreadMerge_keys_sub _ _ x h2 with h3 | h3
        · exact hcfi x h3
        · exact hcfo x h3
      · simp [typeTags, recKeys] at h2
        rcases h2 with h3 | h3 <;> subst h3 <;> (unfold ColonFree; decide)
    have hfil : ∀ v : JsValue, isDef v = true →
        List.filter (fun p : String × JsValue => isDef p.2) (M3 ++ (k, v) :: N3) =
          List.filter (fun p : String × JsValue => isDef p.2) M3 ++ (k, v) ::
            List.filter (fun p : String × JsValue => isDef p.2) N3 := by
      intro v hv
      rw [List.filter_append, List.filter_cons]
      simp [hv]
    have hkeyform : ∀ v : JsValue, isDef v = true →
        serializedCacheKeyParametersForCall idp (l ++ (k, v) :: rtail) t m =
          joinComma (List.orderedInsert strLeRel (k ++ ":" ++ stringifyTop v)
            (sortStrings
              (List.map (fun p : String × JsValue => p.1 ++ ":" ++ stringifyTop p.2)
                  (List.filter (fun p : String × JsValue => isDef p.2) M3) ++
                List.map (fun p : String × JsValue => p.1 ++ ":" ++ stringifyTop p.2)
                  (List.filter (fun p : String × JsValue => isDef p.2) N3)))) := by
      intro v hv
      rw [cacheKey_eq_form, hfin v, hfil v hv, List.map_append, List.map_cons]
      rw [sortStrings_congr _ _ List.perm_middle, sortStrings_cons]
    rw [hkeyform v1 hd1, hkeyform v2 hd2] at heq
    have hiff : ∀ s ∈ sortStrings
        (List.map (fun p : String × JsValue => p.1 ++ ":" ++ stringifyTop p.2)
            (List.filter (fun p : String × JsValue => isDef p.2) M3) ++
          List.map (fun p : String × JsValue => p.1 ++ ":" ++ stringifyTop p.2)
            (List.filter (fun p : String × JsValue => isDef p.2) N3)),
        (strLeRel (k ++ ":" ++ stringifyTop v1) s ↔
          strLeRel (k ++ ":" ++ stringifyTop v2) s) := by
      intro s hs
      have hs2 := ((sortStrings_perm _).mem_iff).mp hs
      have hsrc : ∃ p : String × JsValue,
          (p ∈ M3 ∨ p ∈ N3) ∧ s = p.1 ++ ":" ++ stringifyTop p.2 := by
        rcases List.mem_append.mp hs2 with hsM | hsN
        · rcases List.mem_map.mp hsM with ⟨p, hpmem, hps⟩
          exact ⟨p, Or.inl (List.mem_of_mem_filter hpmem), hps.symm⟩
        · rcases List.mem_map.mp hsN with ⟨p, hpmem, hps⟩
          exact ⟨p, Or.inr (List.mem_of_mem_filter hpmem), hps.symm⟩
      obtain ⟨p, hpmem, hps⟩ := hsrc
      have hpkey : p.1 ∈ recKeys M3 ++ k :: recKeys N3 := by
        rcases hpmem with hM | hN
        · exact List.mem_append_left _ (List.mem_map_of_mem Prod.fst hM)
        · exact List.mem_append_right _
            (List.mem_cons_of_mem _ (List.mem_map_of_mem Prod.fst hN))
      have hkne : k ≠ p.1 := by
        intro he
        rcases hpmem with hM | hN
        · exact hkM3 (he ▸ List.mem_map_of_mem Prod.fst hM)
        · exact hkN3 (he ▸ List.mem_map_of_mem Prod.fst hN)
      have hcfp : ColonFree p.1 := hCF p.1 hpkey
      rw [hps]
      exact entry_rel_indep k p.1 (stringifyTop v1) (stringifyTop v2)
        (stringifyTop p.2) hkne hcfk hcfp
    have hee := orderedInsert_join_inj _ _ _ hiff heq
    exact hvne (entry_eq_parts k k _ _ hcfk hcfk hee).2

/-- C2 (counterexample to the claim as stated): two different option values
whose JSON serializations coincide — an empty object versus an object whose
only property is `undefined` — produce the same cache key, so a differing
option value does not always produce a different key. -/
theorem cacheKey_serialization_collision :
    serializedCacheKeyParametersForCall [] [("a", JsValue.objV [("x", JsValue.undef)])] "t" "m" =
      serializedCacheKeyParametersForCall [] [("a", JsValue.objV [])] "t" "m" ∧
    JsValue.objV [("x", JsValue.undef)] ≠ JsValue.objV [] := by
  constructor
  · decide
  · intro h
    simp at h

/-- Witness for (amended) C2 at concrete inputs: reordering the `stop` and
`timeout` options leaves the key unchanged, while changing an option value's
serialization changes the key. -/
theorem cacheKey_determinism_witness :
    serializedCacheKeyParametersForCall []
        [("stop", JsValue.strV "x"), ("timeout", JsValue.numV 5)] "t" "m" =
      serializedCacheKeyParametersForCall []
        [("timeout", JsValue.numV 5), ("stop", JsValue.strV "x")] "t" "m" ∧
    serializedCacheKeyParametersForCall [] [("a", JsValue.numV 1)] "t" "m" ≠
      serializedCacheKeyParametersForCall [] [("a", JsValue.numV 2)] "t" "m" := by
  constructor
  · exact cacheKey_determinism.1 [] _ _ "t" "m"
      (by unfold NodupKeys; decide) (by unfold NodupKeys; decide)
      (List.Perm.swap _ _ _)
  · exact cacheKey_determinism.2 [] [] [] "a" (JsValue.numV 1) (JsValue.numV 2) "t" "m"
      (by unfold NodupKeys; decide) (by unfold NodupKeys; decide)
      (by intro x hx; simp [recKeys] at hx)
      (by intro x hx
          simp [recKeys] at hx
          subst hx
          unfold ColonFree
          decide)
      (by decide) (by decide) rfl rfl (by decide)
